import Mathlib

/-!
Verification development for the Web-Archiving repository.

The repository has three Python modules:
  * `.github/workflows/scripts/extract_links.py` — link extraction from YAML trees,
  * `scripts/archive_services.py` — HTTP submission to two archiving services,
  * `.github/workflows/scripts/archive_links.py` — orchestrator and JSON log store.

Each definition below is a shallow embedding of the corresponding source
function.  External effects (HTTP responses, exceptions, the clock, the file
system) are passed in explicitly as oracle arguments; machine behaviour that
the source delegates to libraries (the `re` module's matching of the one URL
pattern, `json.dump`/`json.load` restricted to the log document's value
domain) is modelled faithfully to those libraries' documented semantics.
-/

namespace WebArchiving

/-! ## Basic string helpers

Python's `needle in haystack` (substring test), `str.endswith`, and the
character classes used by `extract_links.is_url`. -/

/-- Does `l` begin with the list `p`?  (Helper for the substring test.) -/
def leadsWith : List Char → List Char → Bool
  | [], _ => true
  | _ :: _, [] => false
  | a :: as, b :: bs => a = b && leadsWith as bs

/-- Does `needle` occur as a contiguous sublist of `hay`?  -/
def hasSub (needle : List Char) : List Char → Bool
  | [] => needle.isEmpty
  | c :: rest => leadsWith needle (c :: rest) || hasSub needle rest

/-- Model of Python's `sub in hay` substring operator on `str`. -/
def containsStr (hay sub : String) : Bool :=
  hasSub sub.data hay.data

/-- Model of Python's `s.endswith(suf)`. -/
def endsWithStr (s suf : String) : Bool :=
  leadsWith suf.data.reverse s.data.reverse

/-- ASCII letter, the `[a-zA-Z]` class of the URL pattern. -/
def isUrlAlpha (c : Char) : Bool :=
  ('a' ≤ c && c ≤ 'z') || ('A' ≤ c && c ≤ 'Z')

/-- The `[a-zA-Z0-9-]` class of the URL pattern (domain-label characters). -/
def isLabelChar (c : Char) : Bool :=
  isUrlAlpha c || ('0' ≤ c && c ≤ '9') || c = '-'

/-- Python's `\s` class for `str` patterns (Unicode whitespace as matched by
the `re` module). -/
def isPySpace (c : Char) : Bool :=
  c = ' ' || c = '\t' || c = '\n' || c = '\r' ||
  c.toNat = 0x0b || c.toNat = 0x0c ||
  (0x1c ≤ c.toNat && c.toNat ≤ 0x1f) ||
  c.toNat = 0x85 || c.toNat = 0xa0 || c.toNat = 0x1680 ||
  (0x2000 ≤ c.toNat && c.toNat ≤ 0x200a) ||
  c.toNat = 0x2028 || c.toNat = 0x2029 ||
  c.toNat = 0x202f || c.toNat = 0x205f || c.toNat = 0x3000

/-! ## `extract_links.is_url`

The source compiles
`^(https?:\/\/)?([a-zA-Z0-9-]+\.)*[a-zA-Z0-9-]+\.[a-zA-Z]{2,}(\/[^\s]*)?$`
and calls `url_pattern.match(text)`.

Because no character class of the pattern contains `/`, `.` or `:`, the
pattern matches a string exactly when: after removing an `http://` or
`https://` scheme (only possible when the string literally starts with it),
the part before the first `/` splits on `.` into at least two components,
all components before the last being nonempty `[a-zA-Z0-9-]` labels and the
last being at least two ASCII letters, while everything from the first `/`
on contains no `\s` character.  Python's `$` also matches just before a
single trailing newline, which the model reproduces by dropping one final
`'\n'` before matching. -/

/-- Split a character list on `'.'` (components may be empty). -/
def splitDots (l : List Char) : List (List Char) :=
  l.foldr
    (fun c acc =>
      match acc with
      | [] => [[c]]
      | a :: as => if c = '.' then [] :: a :: as else (c :: a) :: as)
    [[]]

/-- Remove a leading `https://` or `http://`, when present. -/
def stripScheme (l : List Char) : List Char :=
  if leadsWith "https://".data l then l.drop 8
  else if leadsWith "http://".data l then l.drop 7
  else l

/-- The anchored pattern applied to an exact character list (no trailing
newline allowance). -/
def isURLCore (l : List Char) : Bool :=
  let t := stripScheme l
  let d := t.takeWhile (fun c => !(c = '/'))
  let p := t.dropWhile (fun c => !(c = '/'))
  let comps := splitDots d
  decide (2 ≤ comps.length) &&
  comps.dropLast.all (fun c => !c.isEmpty && c.all isLabelChar) &&
  (match comps.getLast? with
   | some last => decide (2 ≤ last.length) && last.all isUrlAlpha
   | none => false) &&
  p.all (fun c => !isPySpace c)

/-- Model of `extract_links.is_url` on strings (the `isinstance` guard of the
source corresponds to the non-string constructors of `Yaml` below never
reaching this function). -/
def is_url (s : String) : Bool :=
  match s.data.getLast? with
  | some '\n' => isURLCore s.data.dropLast || isURLCore s.data
  | _ => isURLCore s.data

/-! ## `extract_links.extract_links_from_dict` and `extract_links_from_yaml`

Parsed YAML trees are modelled by `Yaml`; a mapping is an insertion-ordered
association list (`yaml.safe_load` produces Python dicts, which iterate in
insertion order).  The `other` constructor stands for every scalar that is
neither a string nor a mapping nor a sequence (numbers, booleans, `None`);
all of them are skipped identically by the source, and the only one whose
truthiness the `link` branch can observe behaves the same whether truthy or
not (a non-`str`, non-`list` value contributes nothing in either branch), so
`other` is modelled as falsy. -/

inductive Yaml where
  | str (s : String) : Yaml
  | list (xs : List Yaml) : Yaml
  | map (kvs : List (String × Yaml)) : Yaml
  | other : Yaml

/-- Python truthiness of the values that can appear in a parsed tree. -/
def Yaml.truthy : Yaml → Bool
  | .str s => !s.isEmpty
  | .list xs => !xs.isEmpty
  | .map kvs => !kvs.isEmpty
  | .other => false

/-- The non-recursive `link`-key branch of `extract_links_from_dict`:
a string value is kept when `is_url` accepts it; from a list value the
string elements accepted by `is_url` are kept; any other value contributes
nothing. -/
def linkValueLinks : Yaml → List String
  | .str s => if is_url s then [s] else []
  | .list xs =>
      xs.foldr
        (fun item acc =>
          match item with
          | .str s => if is_url s then s :: acc else acc
          | _ => acc)
        []
  | _ => []

mutual

/-- Model of `extract_links_from_dict` (iteration over `data.items()`). -/
def extract_links_from_dict : List (String × Yaml) → List String
  | [] => []
  | (k, v) :: rest =>
      (if k = "link" && v.truthy then linkValueLinks v
       else
         match v with
         | .map kvs => extract_links_from_dict kvs
         | .list xs => extractSeqLinks xs
         | _ => []) ++ extract_links_from_dict rest

/-- The `elif isinstance(value, list)` branch: mapping elements are recursed
into, URL-shaped string elements are collected, everything else (including
nested sequences) is skipped. -/
def extractSeqLinks : List Yaml → List String
  | [] => []
  | .map kvs :: rest => extract_links_from_dict kvs ++ extractSeqLinks rest
  | .str s :: rest => (if is_url s then [s] else []) ++ extractSeqLinks rest
  | _ :: rest => extractSeqLinks rest

end

/-- Model of the post-parse part of `extract_links_from_yaml` on a parsed
mapping: `if not data: return []`, then `list(set(links))`.  Python's
`set` iteration order is unspecified; `List.dedup` fixes one representative
order, and only order-insensitive facts (membership, multiplicity) are
proved about the result. -/
def extract_links_from_yaml (data : List (String × Yaml)) : List String :=
  if data.isEmpty then [] else (extract_links_from_dict data).dedup

/-! ## `archive_services.py`

One attempt of either service is a `requests` interaction whose observable
outcome is either a raised `requests.RequestException` or a response, of
which the code inspects the status code, the final URL (`response.url`),
the `href` attributes of the anchors BeautifulSoup finds in the body
(`None` when an anchor has no `href`), and the body text.  The outcome of
attempt `i` is supplied by an oracle `env : Nat → HttpOutcome`.  Wall-clock
sleeping and the randomized user agent / inter-request delays have no
influence on the returned values; the sleeps performed by the retry loops
are recorded in the run trace so that the backoff schedule can be stated. -/

inductive HttpOutcome where
  | exn : HttpOutcome
  | resp (status : Nat) (finalUrl : String) (anchors : List (Option String))
      (text : String) : HttpOutcome

/-- Observable trace of one service call: the returned pair
`(success, archived_url)`, how many attempts issued their HTTP
submission, and the argument of each `time.sleep(2 ** attempt)` executed,
in order. -/
structure ServiceRun where
  success : Bool
  archived_url : Option String
  requests : Nat
  sleeps : List Nat
deriving DecidableEq

/-- First anchor `href` passing Python's `if href and p(href)` filter. -/
def findAnchor (p : String → Bool) : List (Option String) → Option String
  | [] => none
  | some h :: rest => if !h.isEmpty && p h then some h else findAnchor p rest
  | none :: rest => findAnchor p rest

/-- The `status_code == 200` branch of `archive_url_wayback`
(lines 45–61 of `archive_services.py`). -/
def wayback200 (url finalUrl : String) (anchors : List (Option String)) :
    Bool × Option String :=
  if containsStr finalUrl "/web/" then (true, some finalUrl)
  else
    match findAnchor (fun h => containsStr h "/web/" && containsStr h url) anchors with
    | some href => (true, some ("https://web.archive.org" ++ href))
    | none => (true, some ("https://web.archive.org/web/*/" ++ url))

/-- Does the string start with `'/'` (Python `href.startswith('/')`)? -/
def startsSlash (s : String) : Bool :=
  match s.data with
  | '/' :: _ => true
  | _ => false

/-- The `status_code == 200` branch of `archive_url_archive_today`
(lines 117–137 of `archive_services.py`).  Note that every path of this
branch returns `True`: when neither the final URL, nor an anchor matching
the service domains and the target, nor the already-saved scrape produces
an archived URL, the code falls through to
`return True, f"https://archive.today/{url}"`. -/
def archiveToday200 (url finalUrl : String) (anchors : List (Option String))
    (text : String) : Bool × Option String :=
  if containsStr finalUrl "archive.today" || containsStr finalUrl "archive.is" then
    (true, some finalUrl)
  else
    match findAnchor
        (fun h => (containsStr h "archive.today" || containsStr h "archive.is")
          && containsStr h url) anchors with
    | some href => (true, some href)
    | none =>
      match (if containsStr text "already been saved" then
              findAnchor (fun h => startsSlash h && decide (2 < h.length)) anchors
             else none) with
      | some href => (true, some ("https://archive.today" ++ href))
      | none => (true, some ("https://archive.today/" ++ url))

/-- Retry loop of `archive_url_wayback`, structurally recursive on the
number of remaining iterations (`remaining = max_retries - attempt`, so the
Python guard `attempt < max_retries - 1` of the exception handler is
`0 < r` when `remaining = r + 1`).  A 429 sleeps `2 ** attempt` and
retries; any other non-200 status returns `(False, None)` at once; a
`RequestException` retries with the same backoff unless attempts are
exhausted; a loop that runs out of iterations returns `(False, None)`
(line 77). -/
def waybackLoop (url : String) (env : Nat → HttpOutcome) :
    Nat → Nat → ServiceRun
  | _, 0 => ⟨false, none, 0, []⟩
  | attempt, r + 1 =>
    match env attempt with
    | .exn =>
        if 0 < r then
          let rest := waybackLoop url env (attempt + 1) r
          ⟨rest.success, rest.archived_url, rest.requests + 1, 2 ^ attempt :: rest.sleeps⟩
        else ⟨false, none, 1, []⟩
    | .resp status finalUrl anchors _ =>
        if status = 200 then
          ⟨(wayback200 url finalUrl anchors).1, (wayback200 url finalUrl anchors).2, 1, []⟩
        else if status = 429 then
          let rest := waybackLoop url env (attempt + 1) r
          ⟨rest.success, rest.archived_url, rest.requests + 1, 2 ^ attempt :: rest.sleeps⟩
        else ⟨false, none, 1, []⟩

/-- Model of `archive_url_wayback url` (default `max_retries = 3`). -/
def archive_url_wayback (url : String) (env : Nat → HttpOutcome)
    (maxRetries : Nat := 3) : ServiceRun :=
  waybackLoop url env 0 maxRetries

/-- Retry loop of `archive_url_archive_today`.  Same shape as the Wayback
loop except that a non-200, non-429 status also retries (sleeping only when
a retry follows, lines 143–147). -/
def archiveTodayLoop (url : String) (env : Nat → HttpOutcome) :
    Nat → Nat → ServiceRun
  | _, 0 => ⟨false, none, 0, []⟩
  | attempt, r + 1 =>
    match env attempt with
    | .exn =>
        if 0 < r then
          let rest := archiveTodayLoop url env (attempt + 1) r
          ⟨rest.success, rest.archived_url, rest.requests + 1, 2 ^ attempt :: rest.sleeps⟩
        else ⟨false, none, 1, []⟩
    | .resp status finalUrl anchors text =>
        if status = 200 then
          ⟨(archiveToday200 url finalUrl anchors text).1,
           (archiveToday200 url finalUrl anchors text).2, 1, []⟩
        else if status = 429 then
          let rest := archiveTodayLoop url env (attempt + 1) r
          ⟨rest.success, rest.archived_url, rest.requests + 1, 2 ^ attempt :: rest.sleeps⟩
        else
          if 0 < r then
            let rest := archiveTodayLoop url env (attempt + 1) r
            ⟨rest.success, rest.archived_url, rest.requests + 1, 2 ^ attempt :: rest.sleeps⟩
          else ⟨false, none, 1, []⟩

/-- Model of `archive_url_archive_today url` (default `max_retries = 3`). -/
def archive_url_archive_today (url : String) (env : Nat → HttpOutcome)
    (maxRetries : Nat := 3) : ServiceRun :=
  archiveTodayLoop url env 0 maxRetries

/-- Per-service entry of the mapping returned by `archive_url`. -/
structure ServiceResult where
  success : Bool
  archived_url : Option String
deriving DecidableEq

/-- Model of `archive_url` (lines 158–190): calls both services with their
default retry bound and wraps each `(flag, url)` pair as
`{'success': flag, 'archived_url': url if flag else None}`, keyed in
insertion order `wayback_machine`, `archive_today`. -/
def archive_url (url : String) (wbEnv atEnv : Nat → HttpOutcome) :
    List (String × ServiceResult) :=
  let wb := archive_url_wayback url wbEnv
  let at2 := archive_url_archive_today url atEnv
  [("wayback_machine",
    { success := wb.success,
      archived_url := if wb.success then wb.archived_url else none }),
   ("archive_today",
    { success := at2.success,
      archived_url := if at2.success then at2.archived_url else none })]

/-! ## `archive_links.py` — change filter, log store, orchestrator loop

Python dicts are modelled as insertion-ordered association lists: a new key
is appended at the end, an assignment to an existing key keeps its
position. -/

/-- `m[k]` lookup for the association-list model of a dict. -/
def lookupKey {α : Type} : List (String × α) → String → Option α
  | [], _ => none
  | (k', v) :: rest, k => if k' = k then some v else lookupKey rest k

/-- `m[k] = v` assignment for the association-list model of a dict. -/
def setKey {α : Type} : List (String × α) → String → α → List (String × α)
  | [], k, v => [(k, v)]
  | (k', v') :: rest, k, v =>
      if k' = k then (k, v) :: rest else (k', v') :: setKey rest k v

/-- One diff entry of `most_recent_commit.diff('HEAD~1')`, as far as the
source inspects it (both paths exist and are strings whenever the loop body
runs without raising; a `None` path raises inside the `try` and is thereby
part of the failure case of the oracle). -/
structure DiffItem where
  a_path : String
  b_path : String

/-- Model of `get_changed_yaml_files`: the git query is an oracle that
either fails (no repository, no parent commit, any exception raised inside
the `try`) or yields the diff items.  On failure the function returns the
empty set; on success it collects both paths of every item one of whose
paths ends in `.yaml` or `.yml`.  The Python `set` is modelled as a
duplicate-free list via `insert`. -/
def get_changed_yaml_files (repoQuery : Except String (List DiffItem)) :
    List String :=
  match repoQuery with
  | .error _ => []
  | .ok items =>
      items.foldl
        (fun changed item =>
          if endsWithStr item.a_path ".yaml" || endsWithStr item.a_path ".yml"
             || endsWithStr item.b_path ".yaml" || endsWithStr item.b_path ".yml" then
            let c1 := if item.a_path.isEmpty then changed else changed.insert item.a_path
            if item.b_path.isEmpty then c1 else c1.insert item.b_path
          else changed)
        []

/-- The change-filter step of `main` (lines 76–80): a non-empty changed set
restricts the per-file link map to changed files, an empty set (the failure
signal) leaves it untouched. -/
def applyChangeFilter (allFilesLinks : List (String × List String))
    (changed : List String) : List (String × List String) :=
  if changed.isEmpty then allFilesLinks
  else allFilesLinks.filter (fun fl => changed.contains fl.1)

/-- Log record for one URL (`LinkRecord` of the spec); `last_updated` is
absent on a freshly created record. -/
structure LinkRecord where
  original_url : String
  first_seen : String
  last_updated : Option String
  files : List String
  services : List (String × ServiceResult)
deriving DecidableEq

/-- The log document's `archived_links` mapping. -/
abbrev LogMap := List (String × LinkRecord)

/-- The skip guard of the main loop (lines 97–99): the URL is present and
some service value has `success` true. -/
def alreadyArchived (log : LogMap) (link : String) : Bool :=
  match lookupKey log link with
  | some r => r.services.any (fun p => p.2.success)
  | none => false

/-- `services` merge of an existing record (lines 124–125):
`services[service] = result` for each pair of the new results. -/
def mergeServices (old new : List (String × ServiceResult)) :
    List (String × ServiceResult) :=
  new.foldl (fun acc p => setKey acc p.1 p.2) old

/-- The create-or-update merge of one archive result into the log
(lines 107–125). -/
def mergeResult (log : LogMap) (link filePath ts : String)
    (results : List (String × ServiceResult)) : LogMap :=
  match lookupKey log link with
  | none =>
      setKey log link
        { original_url := link, first_seen := ts, last_updated := none,
          files := [filePath], services := results }
  | some r =>
      setKey log link
        { r with
          last_updated := some ts,
          files := if filePath ∈ r.files then r.files else r.files ++ [filePath],
          services := mergeServices r.services results }

/-- One iteration of the inner loop of `main` for a single link (lines
92–131): either skip, or invoke the Archive Submitter (whose result the
oracle provides) and merge.  Returns the updated log and whether
`archive_url` was invoked. -/
def processLink (log : LogMap) (filePath link ts : String)
    (results : List (String × ServiceResult)) : LogMap × Bool :=
  if alreadyArchived log link then (log, false)
  else (mergeResult log link filePath ts results, true)

/-- One unit of work of a run: a link occurrence in a file, together with
the oracle data for its processing (the UTC timestamp taken at that moment
and the Archive Submitter's result, would it be invoked). -/
structure WorkItem where
  filePath : String
  link : String
  ts : String
  results : List (String × ServiceResult)

/-- The whole double loop of `main` over files and links, flattened to the
sequence of link occurrences it visits.  Returns the final log and the
list of links for which the Archive Submitter was invoked, in order. -/
def runLinks (log : LogMap) : List WorkItem → LogMap × List String
  | [] => (log, [])
  | w :: ws =>
      let step := processLink log w.filePath w.link w.ts w.results
      let rest := runLinks step.1 ws
      (rest.1, (if step.2 then [w.link] else []) ++ rest.2)

/-- The per-link `files` invariant of the log: no record lists a source
path twice. -/
def FilesNodup (log : LogMap) : Prop :=
  ∀ p ∈ log, p.2.files.Nodup

instance : DecidablePred FilesNodup := fun log =>
  inferInstanceAs (Decidable (∀ p ∈ log, p.2.files.Nodup))

/-! ## JSON persistence (`save_log` / `load_existing_log`)

`save_log` is `json.dump(log_data, f, indent=2)` and `load_existing_log`
is `json.load` with a `JSONDecodeError` fallback to `{"archived_links": {}}`.
The serializer and parser below model CPython's `json` module restricted to
the value domain that ever occurs in a log document: objects with string
keys, arrays, strings, booleans and `null` (a log document contains no
numbers).  `json.dump` is modelled with its defaults (`ensure_ascii=True`,
so every character outside printable ASCII is `\uXXXX`-escaped, astral
characters as surrogate pairs, with `indent=2` pretty printing); the parser
accepts exactly the JSON texts over this domain, skipping the RFC 8259
whitespace characters between tokens.  One deliberate deviation, outside
the reachable domain: a lone surrogate escape is rejected by the model
parser, while CPython would produce an unpaired-surrogate `str` that has no
`Char` counterpart; the encoder never emits one. -/

inductive JValue where
  | null : JValue
  | bool (b : Bool) : JValue
  | str (s : String) : JValue
  | arr (xs : List JValue) : JValue
  | obj (kvs : List (String × JValue)) : JValue

/-- Lowercase hexadecimal digit, as `%04x` formatting uses. -/
def hexDig (n : Nat) : Char :=
  if n < 10 then Char.ofNat (48 + n) else Char.ofNat (97 + (n - 10))

/-- The four hex digits of `n % 0x10000`, most significant first. -/
def hex4 (n : Nat) : List Char :=
  [hexDig (n / 4096 % 16), hexDig (n / 256 % 16), hexDig (n / 16 % 16), hexDig (n % 16)]

/-- `json.dump`'s escaping of one character (`ensure_ascii=True`): the
short escapes, literal printable ASCII, `\uXXXX` otherwise, astral
characters as a surrogate pair. -/
def encChar (c : Char) : List Char :=
  if c = '"' then ['\\', '"']
  else if c = '\\' then ['\\', '\\']
  else if c = Char.ofNat 8 then ['\\', 'b']
  else if c = '\t' then ['\\', 't']
  else if c = '\n' then ['\\', 'n']
  else if c = Char.ofNat 12 then ['\\', 'f']
  else if c = '\r' then ['\\', 'r']
  else if 0x20 ≤ c.toNat && c.toNat ≤ 0x7e then [c]
  else if c.toNat < 0x10000 then '\\' :: 'u' :: hex4 c.toNat
  else
    ('\\' :: 'u' :: hex4 (0xd800 + (c.toNat - 0x10000) / 0x400)) ++
    ('\\' :: 'u' :: hex4 (0xdc00 + (c.toNat - 0x10000) % 0x400))

/-- Escaped body of a serialized string (no quotes). -/
def encStrBody : List Char → List Char
  | [] => []
  | c :: rest => encChar c ++ encStrBody rest

/-- A serialized string, quotes included. -/
def encStr (s : String) : List Char :=
  '"' :: encStrBody s.data ++ ['"']

/-- A newline followed by `i` spaces: the separator `indent=2` places
before an element rendered at indentation width `i`. -/
def nlInd (i : Nat) : List Char :=
  '\n' :: List.replicate i ' '

mutual

/-- `json.dumps(v, indent=2)` at current indentation width `i`. -/
def dumpVal (i : Nat) : JValue → List Char
  | .null => "null".data
  | .bool true => "true".data
  | .bool false => "false".data
  | .str s => encStr s
  | .arr [] => "[]".data
  | .arr (x :: xs) => '[' :: (dumpItems (i + 2) x xs ++ nlInd i ++ [']'])
  | .obj [] => ['\x7b', '\x7d']
  | .obj ((k, v) :: kvs) => '\x7b' :: (dumpMembers (i + 2) k v kvs ++ nlInd i ++ ['\x7d'])
termination_by v => sizeOf v

/-- The comma-joined, indented elements of a non-empty array. -/
def dumpItems (i : Nat) (x : JValue) : List JValue → List Char
  | [] => nlInd i ++ dumpVal i x
  | y :: ys => nlInd i ++ dumpVal i x ++ ',' :: dumpItems i y ys
termination_by xs => sizeOf x + sizeOf xs

/-- The comma-joined, indented `"key": value` members of a non-empty
object. -/
def dumpMembers (i : Nat) (k : String) (v : JValue) : List (String × JValue) → List Char
  | [] => nlInd i ++ encStr k ++ ':' :: ' ' :: dumpVal i v
  | (k2, v2) :: ms => nlInd i ++ encStr k ++ ':' :: ' ' :: dumpVal i v ++ ',' :: dumpMembers i k2 v2 ms
termination_by ms => sizeOf v + sizeOf ms

end

/-- Model of `json.dump(log_data, f, indent=2)`: the text written to the
log file. -/
def jsonDumps (v : JValue) : String :=
  String.mk (dumpVal 0 v)

/-- Is `c` JSON inter-token whitespace? -/
def isJsonWs (c : Char) : Bool :=
  c = ' ' || c = '\t' || c = '\n' || c = '\r'

/-- Drop leading JSON whitespace. -/
def skipWs : List Char → List Char
  | [] => []
  | c :: rest => if isJsonWs c then skipWs rest else c :: rest

/-- Value of one hexadecimal digit character, either case. -/
def hexVal (c : Char) : Option Nat :=
  if '0' ≤ c && c ≤ '9' then some (c.toNat - 48)
  else if 'a' ≤ c && c ≤ 'f' then some (c.toNat - 97 + 10)
  else if 'A' ≤ c && c ≤ 'F' then some (c.toNat - 65 + 10)
  else none

/-- String-body parser: input starts after the opening quote, result is
the decoded characters plus the remainder after the closing quote.
Unescaped control characters are rejected (CPython's `strict=True`);
`\uXXXX` escapes decode to the code point, a high surrogate followed by a
low surrogate to the astral code point.  The fuel only bounds the
recursion depth; every step consumes at least one input character, so the
`length + 1` fuel the callers pass can never truncate a parse. -/
def parseStrBody : Nat → List Char → Option (List Char × List Char)
  | 0, _ => none
  | _ + 1, [] => none
  | fuel + 1, c :: rest =>
    if c = '"' then some ([], rest)
    else if c = '\\' then
      match rest with
      | [] => none
      | e :: r =>
        if e = '"' then (parseStrBody fuel r).map (fun p => ('"' :: p.1, p.2))
        else if e = '\\' then (parseStrBody fuel r).map (fun p => ('\\' :: p.1, p.2))
        else if e = '/' then (parseStrBody fuel r).map (fun p => ('/' :: p.1, p.2))
        else if e = 'b' then (parseStrBody fuel r).map (fun p => (Char.ofNat 8 :: p.1, p.2))
        else if e = 'f' then (parseStrBody fuel r).map (fun p => (Char.ofNat 12 :: p.1, p.2))
        else if e = 'n' then (parseStrBody fuel r).map (fun p => ('\n' :: p.1, p.2))
        else if e = 'r' then (parseStrBody fuel r).map (fun p => ('\r' :: p.1, p.2))
        else if e = 't' then (parseStrBody fuel r).map (fun p => ('\t' :: p.1, p.2))
        else if e = 'u' then
          match r with
          | h1 :: h2 :: h3 :: h4 :: r4 =>
            match hexVal h1, hexVal h2, hexVal h3, hexVal h4 with
            | some a, some b, some c', some d =>
              let n := 4096 * a + 256 * b + 16 * c' + d
              if n < 0xd800 || 0xdfff < n then
                (parseStrBody fuel r4).map (fun p => (Char.ofNat n :: p.1, p.2))
              else if n ≤ 0xdbff then
                match r4 with
                | e2 :: u2 :: h5 :: h6 :: h7 :: h8 :: r8 =>
                  if e2 = '\\' && u2 = 'u' then
                    match hexVal h5, hexVal h6, hexVal h7, hexVal h8 with
                    | some a2, some b2, some c2, some d2 =>
                      let n2 := 4096 * a2 + 256 * b2 + 16 * c2 + d2
                      if 0xdc00 ≤ n2 && n2 ≤ 0xdfff then
                        (parseStrBody fuel r8).map
                          (fun p =>
                            (Char.ofNat (0x10000 + (n - 0xd800) * 0x400 + (n2 - 0xdc00)) :: p.1,
                             p.2))
                      else none
                    | _, _, _, _ => none
                  else none
                | _ => none
              else none
            | _, _, _, _ => none
          | _ => none
        else none
    else if c.toNat < 0x20 then none
    else (parseStrBody fuel rest).map (fun p => (c :: p.1, p.2))

/-- Is the first character of `l` equal to `c`? -/
def headIs (l : List Char) (c : Char) : Bool :=
  match l with
  | x :: _ => x = c
  | [] => false

mutual

/-- Fuel-indexed JSON value parser over the log document's value domain. -/
def parseVal : Nat → List Char → Option (JValue × List Char)
  | 0, _ => none
  | fuel + 1, input =>
    match skipWs input with
    | [] => none
    | c :: rest =>
      if c = '"' then
        (parseStrBody (rest.length + 1) rest).map (fun p => (.str (String.mk p.1), p.2))
      else if c = 'n' then
        if leadsWith ['u', 'l', 'l'] rest then some (.null, rest.drop 3) else none
      else if c = 't' then
        if leadsWith ['r', 'u', 'e'] rest then some (.bool true, rest.drop 3) else none
      else if c = 'f' then
        if leadsWith ['a', 'l', 's', 'e'] rest then some (.bool false, rest.drop 4) else none
      else if c = '[' then
        if headIs (skipWs rest) ']' then some (.arr [], (skipWs rest).tail)
        else (parseItems fuel (skipWs rest)).map (fun p => (.arr p.1, p.2))
      else if c = '\x7b' then
        if headIs (skipWs rest) '\x7d' then some (.obj [], (skipWs rest).tail)
        else (parseMembers fuel (skipWs rest)).map (fun p => (.obj p.1, p.2))
      else none

/-- Elements of a non-empty array, up to and including the closing
bracket. -/
def parseItems : Nat → List Char → Option (List JValue × List Char)
  | 0, _ => none
  | fuel + 1, input =>
    match parseVal fuel input with
    | none => none
    | some (v, r) =>
      if headIs (skipWs r) ',' then
        match parseItems fuel (skipWs r).tail with
        | none => none
        | some (vs, r3) => some (v :: vs, r3)
      else if headIs (skipWs r) ']' then some ([v], (skipWs r).tail)
      else none

/-- Members of a non-empty object, up to and including the closing
brace. -/
def parseMembers : Nat → List Char → Option (List (String × JValue) × List Char)
  | 0, _ => none
  | fuel + 1, input =>
    if headIs (skipWs input) '"' then
      match parseStrBody ((skipWs input).tail.length + 1) (skipWs input).tail with
      | none => none
      | some (k, r1) =>
        if headIs (skipWs r1) ':' then
          match parseVal fuel (skipWs r1).tail with
          | none => none
          | some (v, r3) =>
            if headIs (skipWs r3) ',' then
              match parseMembers fuel (skipWs r3).tail with
              | none => none
              | some (ms, r5) => some ((String.mk k, v) :: ms, r5)
            else if headIs (skipWs r3) '\x7d' then some ([(String.mk k, v)], (skipWs r3).tail)
            else none
        else none
    else none

end

/-- Model of `json.load` on the log file's text (trailing whitespace
allowed, anything else after the document is an error).  The fuel
`length + 1` is an upper bound on the recursion depth any parse of the
input can need. -/
def jsonLoads (s : String) : Option JValue :=
  match parseVal (s.data.length + 1) s.data with
  | some (v, rest) => if (skipWs rest).isEmpty then some v else none
  | none => none

mutual

/-- Recursion fuel sufficient to parse a serialization of `v`. -/
def jfuel : JValue → Nat
  | .null => 1
  | .bool _ => 1
  | .str _ => 1
  | .arr [] => 1
  | .arr (x :: xs) => 1 + jfuelItems x xs
  | .obj [] => 1
  | .obj ((_, v) :: kvs) => 1 + jfuelMembers v kvs
termination_by v => sizeOf v

/-- Fuel for the element list of a non-empty array. -/
def jfuelItems (x : JValue) : List JValue → Nat
  | [] => 1 + jfuel x
  | y :: ys => 1 + jfuel x + jfuelItems y ys
termination_by xs => sizeOf x + sizeOf xs

/-- Fuel for the member list of a non-empty object (keys need no fuel). -/
def jfuelMembers (v : JValue) : List (String × JValue) → Nat
  | [] => 1 + jfuel v
  | (_, v2) :: ms => 1 + jfuel v + jfuelMembers v2 ms
termination_by ms => sizeOf v + sizeOf ms

end

/-- The default document of `load_existing_log`. -/
def emptyLogDoc : JValue :=
  .obj [("archived_links", .obj [])]

/-- Model of `save_log`: the content of `logs/archive_log.json` after the
write (the file-system state is just the file's optional content). -/
def save_log (logData : JValue) : Option String :=
  some (jsonDumps logData)

/-- Model of `load_existing_log`: parse the file when present, fall back
to the fresh document on absence or decode error. -/
def load_existing_log (file : Option String) : JValue :=
  match file with
  | none => emptyLogDoc
  | some s =>
    match jsonLoads s with
    | some v => v
    | none => emptyLogDoc

/-! ## Nesting contexts for the traversal-depth statements

`wrapLevel k false m` places the mapping `m` as the value of key `k`;
`wrapLevel k true m` places it as a mapping element of a sequence under
key `k`.  `wrapChain` composes such wrappings to arbitrary depth. -/

/-- One level of nesting around a mapping. -/
def wrapLevel (k : String) (inSeq : Bool) (kvs : List (String × Yaml)) :
    List (String × Yaml) :=
  if inSeq then [(k, .list [.map kvs])] else [(k, .map kvs)]

/-- A chain of nesting levels around a mapping, outermost first. -/
def wrapChain : List (String × Bool) → List (String × Yaml) → List (String × Yaml)
  | [], kvs => kvs
  | (k, b) :: ws, kvs => wrapLevel k b (wrapChain ws kvs)

/-! # Theorems

First the shared helper lemmas, then one theorem per claim (with its
witness or counterexample where required). -/

/-- Links extracted from a mapping survive one level of nesting, as long as
the nesting key is not `link`. -/
theorem extract_wrapLevel (k : String) (b : Bool) (m : List (String × Yaml))
    (hk : k ≠ "link") (u : String) (hu : u ∈ extract_links_from_dict m) :
    u ∈ extract_links_from_dict (wrapLevel k b m) := by
  cases b <;>
    simp [wrapLevel, extract_links_from_dict, extractSeqLinks, hk, hu]

/-- C5, counterexample.  The claim asserts that `extract_links_from_dict`
collects a URL-shaped string at any depth, including under a mapping
stored beneath a `link` key and inside a sequence nested within a
sequence.  `"https://ab.cd"` is URL-shaped, yet in both of those positions
the traversal returns no links: a truthy `link` value that is a mapping is
consumed by the `link` branch without recursion, and a sequence element
that is itself a sequence matches neither the mapping nor the string arm
of the element loop. -/
theorem extract_links_misses_link_map_and_nested_seq :
    is_url "https://ab.cd" = true ∧
    extract_links_from_dict [("link", Yaml.map [("a", Yaml.str "https://ab.cd")])] = [] ∧
    extract_links_from_dict [("k", Yaml.list [Yaml.list [Yaml.str "https://ab.cd"]])] = [] := by
  refine ⟨by decide, ?_, ?_⟩ <;>
    simp [extract_links_from_dict, extractSeqLinks, linkValueLinks, Yaml.truthy]

/-- C5, amended.  The traversal recurses into mapping values of keys other
than `link` and into mapping elements of sequence values of keys other
than `link`: every link collected from a mapping is still collected after
wrapping that mapping in any chain of such contexts (mappings directly
beneath a `link` key and sequences nested within sequences are, by the
counterexample, not traversed). -/
theorem extract_links_reaches_non_link_nesting (ws : List (String × Bool))
    (kvs : List (String × Yaml)) (u : String)
    (hk : ∀ w ∈ ws, w.1 ≠ "link")
    (hu : u ∈ extract_links_from_dict kvs) :
    u ∈ extract_links_from_dict (wrapChain ws kvs) := by
  induction ws with
  | nil => simpa [wrapChain] using hu
  | cons w ws ih =>
    obtain ⟨k, b⟩ := w
    have hk' : k ≠ "link" := hk (k, b) (List.mem_cons_self _ _)
    have hrest : ∀ w ∈ ws, w.1 ≠ "link" := fun w hw => hk w (List.mem_cons_of_mem _ hw)
    exact extract_wrapLevel k b (wrapChain ws kvs) hk' u (ih hrest)

/-- C5, witness for the amended theorem: a link two non-`link` levels deep
(a mapping under key `b` inside a sequence, under key `a`) is collected. -/
theorem extract_links_reaches_non_link_nesting_witness :
    "https://ab.cd" ∈ extract_links_from_dict
      (wrapChain [("a", false), ("b", true)] [("link", Yaml.str "https://ab.cd")]) :=
  extract_links_reaches_non_link_nesting [("a", false), ("b", true)]
    [("link", Yaml.str "https://ab.cd")] "https://ab.cd" (by decide)
    (by simp [extract_links_from_dict, linkValueLinks, Yaml.truthy]; decide)

/-- C6, counterexample.  The claim asserts that a file whose tree contains
a mapping with key `link` and value `"https://a.b/c"` yields that string
exactly once.  But `"https://a.b/c"` fails the URL pattern (its final
domain label `b` is a single letter, and the pattern demands at least two),
so the extractor yields it zero times even from the direct mapping
`{link: "https://a.b/c"}`. -/
theorem extract_links_from_yaml_misses_one_letter_tld :
    is_url "https://a.b/c" = false ∧
    (extract_links_from_yaml [("link", Yaml.str "https://a.b/c")]).count "https://a.b/c" = 0 := by
  refine ⟨by decide, ?_⟩
  simp only [extract_links_from_yaml, extract_links_from_dict, linkValueLinks, Yaml.truthy]
  decide

/-- C6, amended.  For every parsed mapping, any string the traversal
collects — in particular the value of a reachable `link` key that matches
the URL pattern — appears in the per-file result exactly once, however
many times the traversal collected it. -/
theorem extract_links_from_yaml_count_one (data : List (String × Yaml)) (u : String)
    (hu : u ∈ extract_links_from_dict data) :
    (extract_links_from_yaml data).count u = 1 := by
  have hne : data.isEmpty = false := by
    cases data with
    | nil => simp [extract_links_from_dict] at hu
    | cons a l => rfl
  rw [extract_links_from_yaml, hne]
  simp only [Bool.false_eq_true, if_false]
  rw [List.count_dedup]
  simp [hu]

/-- C6, witness: a tree containing `link: "https://a.bc/d"` twice (once at
top level, once nested) yields the link exactly once. -/
theorem extract_links_from_yaml_count_one_witness :
    (extract_links_from_yaml
      [("link", Yaml.str "https://a.bc/d"),
       ("x", Yaml.map [("link", Yaml.str "https://a.bc/d")])]).count "https://a.bc/d" = 1 :=
  extract_links_from_yaml_count_one
    [("link", Yaml.str "https://a.bc/d"),
     ("x", Yaml.map [("link", Yaml.str "https://a.bc/d")])] "https://a.bc/d"
    (by simp [extract_links_from_dict, linkValueLinks, Yaml.truthy]; decide)

/-! ### Association-list dictionary lemmas -/

/-- Assignment to one key does not touch the value of another key. -/
theorem lookupKey_setKey_ne {α : Type} (m : List (String × α)) (k k' : String)
    (v : α) (h : k' ≠ k) : lookupKey (setKey m k v) k' = lookupKey m k' := by
  have h2 : ¬k = k' := fun hh => h hh.symm
  induction m with
  | nil => simp [setKey, lookupKey, h2]
  | cons p rest ih =>
    obtain ⟨pk, pv⟩ := p
    by_cases hpk : pk = k
    · subst hpk
      simp [setKey, lookupKey, h2]
    · simp [setKey, lookupKey, hpk, ih]

/-- A successful lookup exhibits a member of the list. -/
theorem lookupKey_mem {α : Type} (m : List (String × α)) (k : String) (v : α)
    (h : lookupKey m k = some v) : (k, v) ∈ m := by
  induction m with
  | nil => simp [lookupKey] at h
  | cons p rest ih =>
    obtain ⟨pk, pv⟩ := p
    by_cases hpk : pk = k
    · subst hpk
      simp [lookupKey] at h
      simp [h]
    · simp [lookupKey, hpk] at h
      exact List.mem_cons_of_mem _ (ih h)

/-- Every member of `setKey m k v` is the new pair or an old member. -/
theorem setKey_mem {α : Type} (m : List (String × α)) (k : String) (v : α)
    (p : String × α) (h : p ∈ setKey m k v) : p = (k, v) ∨ p ∈ m := by
  induction m with
  | nil => simp [setKey] at h; simp [h]
  | cons q rest ih =>
    obtain ⟨qk, qv⟩ := q
    by_cases hqk : qk = k
    · subst hqk
      simp [setKey] at h
      rcases h with h | h
      · exact Or.inl h
      · exact Or.inr (List.mem_cons_of_mem _ h)
    · simp [setKey, hqk] at h
      rcases h with h | h
      · exact Or.inr (by simp [h])
      · rcases ih h with h' | h'
        · exact Or.inl h'
        · exact Or.inr (List.mem_cons_of_mem _ h')

/-! ### Orchestrator-step lemmas -/

/-- A link whose record already has a successful service is skipped and the
log is returned unchanged. -/
theorem processLink_skip (log : LogMap) (f L ts : String)
    (res : List (String × ServiceResult)) (h : alreadyArchived log L = true) :
    processLink log f L ts res = (log, false) := by
  simp [processLink, h]

/-- Processing one link leaves the records of all other links alone. -/
theorem processLink_lookup_ne (log : LogMap) (f l ts : String)
    (res : List (String × ServiceResult)) (L : String) (h : l ≠ L) :
    lookupKey (processLink log f l ts res).1 L = lookupKey log L := by
  rw [processLink]
  split
  · rfl
  · rw [mergeResult]
    split <;> exact lookupKey_setKey_ne _ _ _ _ (fun hh => h hh.symm)

/-- C1.  A URL whose log record already carries one `success: true` service
is never handed to the Archive Submitter during a run, and its record is
identical before and after the run — whatever work items the run visits
and whatever the submission oracle would have answered. -/
theorem run_skips_already_successful (log : LogMap) (items : List WorkItem)
    (L : String) (rec : LinkRecord)
    (hmem : lookupKey log L = some rec)
    (hsucc : rec.services.any (fun p => p.2.success) = true) :
    lookupKey (runLinks log items).1 L = some rec ∧ L ∉ (runLinks log items).2 := by
  induction items generalizing log with
  | nil => simpa [runLinks] using hmem
  | cons w ws ih =>
    by_cases hL : w.link = L
    · have harch : alreadyArchived log w.link = true := by
        rw [hL, alreadyArchived, hmem]
        exact hsucc
      have hstep : processLink log w.filePath w.link w.ts w.results = (log, false) :=
        processLink_skip _ _ _ _ _ harch
      have := ih log hmem
      simp [runLinks, hstep]
      exact this
    · have hpres :
          lookupKey (processLink log w.filePath w.link w.ts w.results).1 L = some rec := by
        rw [processLink_lookup_ne _ _ _ _ _ _ hL]
        exact hmem
      have := ih _ hpres
      simp only [runLinks]
      refine ⟨this.1, ?_⟩
      intro hcon
      rcases List.mem_append.mp hcon with h | h
      · split at h <;> simp_all
      · exact this.2 h

/-- C1, witness: with `u1` already successfully archived, a run over an
occurrence of `u1` and one of `u2` leaves `u1`'s record unchanged and
invokes the submitter for `u2` only. -/
theorem run_skips_already_successful_witness :
    lookupKey
      (runLinks
        [("u1", { original_url := "u1", first_seen := "t0", last_updated := none,
                  files := ["a.yaml"],
                  services := [("wayback_machine", ⟨true, some "w"⟩)] })]
        [⟨"a.yaml", "u1", "t1", [("wayback_machine", ⟨false, none⟩)]⟩,
         ⟨"a.yaml", "u2", "t1", [("wayback_machine", ⟨false, none⟩)]⟩]).1 "u1" =
      some { original_url := "u1", first_seen := "t0", last_updated := none,
             files := ["a.yaml"],
             services := [("wayback_machine", ⟨true, some "w"⟩)] } ∧
    "u1" ∉
      (runLinks
        [("u1", { original_url := "u1", first_seen := "t0", last_updated := none,
                  files := ["a.yaml"],
                  services := [("wayback_machine", ⟨true, some "w"⟩)] })]
        [⟨"a.yaml", "u1", "t1", [("wayback_machine", ⟨false, none⟩)]⟩,
         ⟨"a.yaml", "u2", "t1", [("wayback_machine", ⟨false, none⟩)]⟩]).2 :=
  run_skips_already_successful _ _ "u1" _ (by decide) (by decide)

/-- C7.  When the version-control query fails, `get_changed_yaml_files`
returns the empty set, and the orchestrator's filter step then processes
the full extracted file set unchanged. -/
theorem change_filter_failure_fallback (e : String)
    (allFilesLinks : List (String × List String)) :
    get_changed_yaml_files (.error e) = [] ∧
    applyChangeFilter allFilesLinks (get_changed_yaml_files (.error e)) = allFilesLinks := by
  constructor
  · rfl
  · simp [get_changed_yaml_files, applyChangeFilter]

/-- `(l ++ [a]).Nodup` from `l.Nodup` and `a ∉ l`. -/
theorem nodup_append_singleton {α : Type} [DecidableEq α] (l : List α) (a : α)
    (hl : l.Nodup) (ha : a ∉ l) : (l ++ [a]).Nodup := by
  rw [List.nodup_append_comm]
  exact List.nodup_cons.mpr ⟨ha, hl⟩

/-- C9.  Every merge step of the orchestrator preserves the invariant that
no record's `files` list contains a duplicate path: a fresh record starts
with a singleton, and an existing record gains the path only when it is not
already present. -/
theorem processLink_preserves_files_nodup (log : LogMap) (f L ts : String)
    (res : List (String × ServiceResult)) (h : FilesNodup log) :
    FilesNodup (processLink log f L ts res).1 := by
  rw [processLink]
  split
  · exact h
  · rw [mergeResult]
    split
    · intro p hp
      rcases setKey_mem _ _ _ _ hp with hp' | hp'
      · subst hp'; simp
      · exact h p hp'
    · rename_i r hr
      intro p hp
      rcases setKey_mem _ _ _ _ hp with hp' | hp'
      · subst hp'
        simp only
        split
        · exact h (L, r) (lookupKey_mem _ _ _ hr)
        · rename_i hf
          exact nodup_append_singleton _ _ (h (L, r) (lookupKey_mem _ _ _ hr)) hf
      · exact h p hp'

/-- C9, witness: merging a result for `u2` into a log holding `u1` (with a
duplicate-free `files` list) keeps every `files` list duplicate-free. -/
theorem processLink_preserves_files_nodup_witness :
    FilesNodup
      (processLink
        [("u1", { original_url := "u1", first_seen := "t0", last_updated := none,
                  files := ["a.yaml", "b.yaml"],
                  services := [("wayback_machine", ⟨false, none⟩)] })]
        "a.yaml" "u1" "t1" [("archive_today", ⟨true, some "x"⟩)]).1 :=
  processLink_preserves_files_nodup _ "a.yaml" "u1" "t1" _ (by decide)

/-! ### Archive-service lemmas -/

/-- The 200-branch of the Wayback service always yields an archived URL
(final URL, scraped anchor, or synthesized wildcard lookup). -/
theorem wayback200_snd (url finalUrl : String) (anchors : List (Option String)) :
    ∃ s, (wayback200 url finalUrl anchors).2 = some s := by
  rw [wayback200]
  split
  · exact ⟨finalUrl, rfl⟩
  · split
    · exact ⟨_, rfl⟩
    · exact ⟨_, rfl⟩

/-- The 200-branch of the Archive.today service always reports success. -/
theorem archiveToday200_fst (url finalUrl : String) (anchors : List (Option String))
    (text : String) : (archiveToday200 url finalUrl anchors text).1 = true := by
  rw [archiveToday200]
  split
  · rfl
  · split
    · rfl
    · split
      · rfl
      · rfl

/-- The 200-branch of the Archive.today service always yields an archived
URL. -/
theorem archiveToday200_snd (url finalUrl : String) (anchors : List (Option String))
    (text : String) : ∃ s, (archiveToday200 url finalUrl anchors text).2 = some s := by
  rw [archiveToday200]
  split
  · exact ⟨finalUrl, rfl⟩
  · split
    · exact ⟨_, rfl⟩
    · split
      · exact ⟨_, rfl⟩
      · exact ⟨_, rfl⟩

/-- Whenever the Wayback retry loop reports success it carries an archived
URL. -/
theorem waybackLoop_success_some (url : String) (env : Nat → HttpOutcome) :
    ∀ (r a : Nat), (waybackLoop url env a r).success = true →
      ∃ s, (waybackLoop url env a r).archived_url = some s := by
  intro r
  induction r with
  | zero => intro a h; simp [waybackLoop] at h
  | succ r ih =>
    intro a h
    rcases henv : env a with _ | ⟨status, f, an, t⟩
    · simp only [waybackLoop, henv] at h ⊢
      by_cases hr : 0 < r
      · simp only [if_pos hr] at h ⊢
        exact ih (a + 1) h
      · simp [if_neg hr] at h
    · simp only [waybackLoop, henv] at h ⊢
      by_cases h200 : status = 200
      · simp only [if_pos h200] at h ⊢
        exact wayback200_snd url f an
      · by_cases h429 : status = 429
        · simp only [if_neg h200, if_pos h429] at h ⊢
          exact ih (a + 1) h
        · simp [if_neg h200, if_neg h429] at h

/-- Whenever the Archive.today retry loop reports success it carries an
archived URL. -/
theorem archiveTodayLoop_success_some (url : String) (env : Nat → HttpOutcome) :
    ∀ (r a : Nat), (archiveTodayLoop url env a r).success = true →
      ∃ s, (archiveTodayLoop url env a r).archived_url = some s := by
  intro r
  induction r with
  | zero => intro a h; simp [archiveTodayLoop] at h
  | succ r ih =>
    intro a h
    rcases henv : env a with _ | ⟨status, f, an, t⟩
    · simp only [archiveTodayLoop, henv] at h ⊢
      by_cases hr : 0 < r
      · simp only [if_pos hr] at h ⊢
        exact ih (a + 1) h
      · simp [if_neg hr] at h
    · simp only [archiveTodayLoop, henv] at h ⊢
      by_cases h200 : status = 200
      · simp only [if_pos h200] at h ⊢
        exact archiveToday200_snd url f an t
      · by_cases h429 : status = 429
        · simp only [if_neg h200, if_pos h429] at h ⊢
          exact ih (a + 1) h
        · by_cases hr : 0 < r
          · simp only [if_neg h200, if_neg h429, if_pos hr] at h ⊢
            exact ih (a + 1) h
          · simp [if_neg h200, if_neg h429, if_neg hr] at h

/-- C2.  For every URL and every behaviour of the two HTTP endpoints
(responses of any status or raised request exceptions — the model's
totality is the `never raises` guarantee), `archive_url` returns a mapping
whose keys are exactly `wayback_machine` and `archive_today`, in which
every failed service is recorded as `{success: false, archived_url: None}`. -/
theorem archive_url_exact_keys_and_failure_shape (url : String)
    (wbEnv atEnv : Nat → HttpOutcome) :
    (archive_url url wbEnv atEnv).map Prod.fst = ["wayback_machine", "archive_today"] ∧
    ∀ p ∈ archive_url url wbEnv atEnv,
      p.2.success = false → p.2.archived_url = none := by
  constructor
  · rfl
  · intro p hp hfail
    simp only [archive_url, List.mem_cons, List.not_mem_nil, or_false] at hp
    rcases hp with rfl | rfl <;>
      · simp only at hfail ⊢
        simp [hfail]

/-- C2, witness: against an endpoint pair answering HTTP 500 and a raised
exception, the keys are the two services and the failed Wayback entry is
`{success: false, archived_url: None}`. -/
theorem archive_url_exact_keys_and_failure_shape_witness :
    (archive_url "u" (fun _ => .resp 500 "" [] "") (fun _ => .exn)).map Prod.fst =
      ["wayback_machine", "archive_today"] ∧
    ((⟨false, none⟩ : ServiceResult).success = false →
      (⟨false, none⟩ : ServiceResult).archived_url = none) :=
  ⟨(archive_url_exact_keys_and_failure_shape "u" (fun _ => .resp 500 "" [] "")
      (fun _ => .exn)).1,
   (archive_url_exact_keys_and_failure_shape "u" (fun _ => .resp 500 "" [] "")
      (fun _ => .exn)).2 ("wayback_machine", ⟨false, none⟩) (by decide)⟩

/-- C3.  With the default bound of 3 attempts: when every Wayback snapshot
GET returns HTTP 429, the result is `(False, None)`, exactly 3 requests
are issued, and the backoff sleeps are `2^0, 2^1, 2^2` seconds (so each
retry is preceded by the `2^attempt` backoff of the 429 before it);
whereas a first response with any status other than 200 and 429 produces
`(False, None)` immediately after a single request, with no backoff. -/
theorem wayback_429_retries_and_other_status_fails_fast (url : String)
    (env env2 : Nat → HttpOutcome) (s : Nat) (fu tx : String)
    (an : List (Option String))
    (h429 : ∀ i, i < 3 → ∃ fu' an' tx', env i = .resp 429 fu' an' tx')
    (h2 : env2 0 = .resp s fu an tx) (hs200 : s ≠ 200) (hs429 : s ≠ 429) :
    archive_url_wayback url env = ⟨false, none, 3, [1, 2, 4]⟩ ∧
    archive_url_wayback url env2 = ⟨false, none, 1, []⟩ := by
  constructor
  · obtain ⟨f0, a0, t0, e0⟩ := h429 0 (by omega)
    obtain ⟨f1, a1, t1, e1⟩ := h429 1 (by omega)
    obtain ⟨f2, a2, t2, e2⟩ := h429 2 (by omega)
    simp [archive_url_wayback, waybackLoop, e0, e1, e2]
  · simp [archive_url_wayback, waybackLoop, h2, hs200, hs429]

/-- C3, witness: the all-429 endpoint and an HTTP-500 endpoint. -/
theorem wayback_429_retries_and_other_status_fails_fast_witness :
    archive_url_wayback "u" (fun _ => .resp 429 "" [] "") = ⟨false, none, 3, [1, 2, 4]⟩ ∧
    archive_url_wayback "u" (fun _ => .resp 500 "" [] "") = ⟨false, none, 1, []⟩ :=
  wayback_429_retries_and_other_status_fails_fast "u"
    (fun _ => .resp 429 "" [] "") (fun _ => .resp 500 "" [] "") 500 "" "" []
    (fun _ _ => ⟨"", [], "", rfl⟩) rfl (by decide) (by decide)

/-- C4, counterexample.  The claim says an HTTP 200 submit response yields
success only when one of the three stated conditions holds.  Here is a 200
response satisfying none of them — the final URL is on neither service
domain, the body has no anchors at all, and the body does not say the link
was already archived — yet the service reports success with a synthesized
fallback URL. -/
theorem archive_today_200_success_without_conditions :
    (containsStr "https://other.site/x" "archive.today"
      || containsStr "https://other.site/x" "archive.is") = false ∧
    containsStr "nope" "already been saved" = false ∧
    (archive_url_archive_today "example.com"
      (fun _ => .resp 200 "https://other.site/x" [] "nope")).success = true ∧
    (archive_url_archive_today "example.com"
      (fun _ => .resp 200 "https://other.site/x" [] "nope")).archived_url =
      some "https://archive.today/example.com" := by
  decide

/-- C4, amended.  On an HTTP 200 submit response Service B always reports
`success = true`: the three stated conditions only select which archived
URL is reported, and when none of them holds the code synthesizes the
fallback `https://archive.today/<url>` instead of failing. -/
theorem archive_today_200_always_success (url : String) (env : Nat → HttpOutcome)
    (fu tx : String) (an : List (Option String)) (h : env 0 = .resp 200 fu an tx) :
    (archive_url_archive_today url env).success = true := by
  simp only [archive_url_archive_today, archiveTodayLoop, h, if_pos]
  exact archiveToday200_fst url fu an tx

/-- C4, witness for the amended theorem. -/
theorem archive_today_200_always_success_witness :
    (archive_url_archive_today "u" (fun _ => .resp 200 "f" [] "t")).success = true :=
  archive_today_200_always_success "u" (fun _ => .resp 200 "f" [] "t") "f" "t" [] rfl

/-- C10.  In every mapping returned by `archive_url`, a service entry with
`success = false` has `archived_url = None`, and one with `success = true`
carries some archived URL string (the fallback synthesis guarantees one on
every success path of both services). -/
theorem archive_url_success_has_url (url : String) (wbEnv atEnv : Nat → HttpOutcome) :
    ∀ p ∈ archive_url url wbEnv atEnv,
      (p.2.success = true → ∃ s, p.2.archived_url = some s) ∧
      (p.2.success = false → p.2.archived_url = none) := by
  intro p hp
  simp only [archive_url, List.mem_cons, List.not_mem_nil, or_false] at hp
  rcases hp with rfl | rfl
  · constructor
    · intro h
      simp only at h ⊢
      simp only [h, if_true]
      exact waybackLoop_success_some url wbEnv 3 0 h
    · intro h
      simp only at h ⊢
      simp [h]
  · constructor
    · intro h
      simp only at h ⊢
      simp only [h, if_true]
      exact archiveTodayLoop_success_some url atEnv 3 0 h
    · intro h
      simp only at h ⊢
      simp [h]

/-- C10, witness: a Wayback 200 response whose final URL is already an
archive path gives `success = true` with that URL; the instantiated
conclusion holds for the member entry. -/
theorem archive_url_success_has_url_witness :
    (((⟨true, some "https://web.archive.org/web/x"⟩ : ServiceResult).success = true →
      ∃ s, (⟨true, some "https://web.archive.org/web/x"⟩ : ServiceResult).archived_url = some s) ∧
     ((⟨true, some "https://web.archive.org/web/x"⟩ : ServiceResult).success = false →
      (⟨true, some "https://web.archive.org/web/x"⟩ : ServiceResult).archived_url = none)) :=
  archive_url_success_has_url "u"
    (fun _ => .resp 200 "https://web.archive.org/web/x" [] "")
    (fun _ => .resp 500 "" [] "")
    ("wayback_machine", ⟨true, some "https://web.archive.org/web/x"⟩) (by decide)

/-! ### JSON codec: whitespace and character lemmas -/

/-- Leading whitespace produced by the pretty printer is skipped. -/
theorem skipWs_nlInd (i : Nat) (rest : List Char) :
    skipWs (nlInd i ++ rest) = skipWs rest := by
  induction i with
  | zero => simp [nlInd, skipWs, isJsonWs]
  | succ n ih => simp_all [nlInd, skipWs, isJsonWs, List.replicate_succ]

/-- Skipping whitespace is idempotent. -/
theorem skipWs_idem (l : List Char) : skipWs (skipWs l) = skipWs l := by
  induction l with
  | nil => rfl
  | cons c rest ih =>
    by_cases h : isJsonWs c = true
    · simp [skipWs, h, ih]
    · simp [skipWs, h]

/-- A non-whitespace head survives `skipWs`. -/
theorem skipWs_cons_false (c : Char) (l : List Char) (h : isJsonWs c = false) :
    skipWs (c :: l) = c :: l := by
  simp [skipWs, h]

/-- Validity bounds of a `Char`'s code point. -/
theorem char_valid_nat (c : Char) :
    c.toNat < 0xd800 ∨ (0xdfff < c.toNat ∧ c.toNat < 0x110000) := c.valid

/-- The hex digits the serializer emits decode to their values. -/
theorem hexVal_hexDig : ∀ d, d < 16 → hexVal (hexDig d) = some d := by decide

/-- Decoding a `\uXXXX` escape of a non-surrogate BMP code point. -/
theorem parseStrBody_u_bmp (fuel n : Nat) (t : List Char) (hn : n < 0x10000)
    (hrange : n < 0xd800 ∨ 0xdfff < n) :
    parseStrBody (fuel + 1) ('\\' :: 'u' :: hex4 n ++ t) =
      (parseStrBody fuel t).map (fun p => (Char.ofNat n :: p.1, p.2)) := by
  have e1 := hexVal_hexDig (n / 4096 % 16) (Nat.mod_lt _ (by omega))
  have e2 := hexVal_hexDig (n / 256 % 16) (Nat.mod_lt _ (by omega))
  have e3 := hexVal_hexDig (n / 16 % 16) (Nat.mod_lt _ (by omega))
  have e4 := hexVal_hexDig (n % 16) (Nat.mod_lt _ (by omega))
  have hrec : 4096 * (n / 4096 % 16) + 256 * (n / 256 % 16) + 16 * (n / 16 % 16) + n % 16 = n := by
    omega
  have hb : (decide (n < 0xd800) || decide (0xdfff < n)) = true := by
    rcases hrange with h | h <;> simp [h]
  simp only [hex4, List.append_eq, List.cons_append, List.nil_append, parseStrBody,
    Char.reduceEq, reduceIte, e1, e2, e3, e4, hrec, hb, if_true]

/-- Decoding a surrogate-pair escape of an astral code point
(`m` is the offset above `0x10000`). -/
theorem parseStrBody_u_pair (fuel m : Nat) (t : List Char) (hm : m < 0x100000) :
    parseStrBody (fuel + 1)
      ('\\' :: 'u' :: hex4 (0xd800 + m / 0x400) ++
        ('\\' :: 'u' :: hex4 (0xdc00 + m % 0x400) ++ t)) =
      (parseStrBody fuel t).map (fun p => (Char.ofNat (0x10000 + m) :: p.1, p.2)) := by
  have hdiv : m / 0x400 < 0x400 := by omega
  have hmod : m % 0x400 < 0x400 := Nat.mod_lt _ (by omega)
  have e1 := hexVal_hexDig ((0xd800 + m / 0x400) / 4096 % 16) (Nat.mod_lt _ (by omega))
  have e2 := hexVal_hexDig ((0xd800 + m / 0x400) / 256 % 16) (Nat.mod_lt _ (by omega))
  have e3 := hexVal_hexDig ((0xd800 + m / 0x400) / 16 % 16) (Nat.mod_lt _ (by omega))
  have e4 := hexVal_hexDig ((0xd800 + m / 0x400) % 16) (Nat.mod_lt _ (by omega))
  have e5 := hexVal_hexDig ((0xdc00 + m % 0x400) / 4096 % 16) (Nat.mod_lt _ (by omega))
  have e6 := hexVal_hexDig ((0xdc00 + m % 0x400) / 256 % 16) (Nat.mod_lt _ (by omega))
  have e7 := hexVal_hexDig ((0xdc00 + m % 0x400) / 16 % 16) (Nat.mod_lt _ (by omega))
  have e8 := hexVal_hexDig ((0xdc00 + m % 0x400) % 16) (Nat.mod_lt _ (by omega))
  have hrec1 : 4096 * ((0xd800 + m / 0x400) / 4096 % 16) + 256 * ((0xd800 + m / 0x400) / 256 % 16)
      + 16 * ((0xd800 + m / 0x400) / 16 % 16) + (0xd800 + m / 0x400) % 16
      = 0xd800 + m / 0x400 := by omega
  have hrec2 : 4096 * ((0xdc00 + m % 0x400) / 4096 % 16) + 256 * ((0xdc00 + m % 0x400) / 256 % 16)
      + 16 * ((0xdc00 + m % 0x400) / 16 % 16) + (0xdc00 + m % 0x400) % 16
      = 0xdc00 + m % 0x400 := by omega
  have hb1 : (decide (0xd800 + m / 0x400 < 0xd800)
      || decide (0xdfff < 0xd800 + m / 0x400)) = false := by
    simp; omega
  have hb2 : 0xd800 + m / 0x400 ≤ 0xdbff := by omega
  have hb3 : (decide (0xdc00 ≤ 0xdc00 + m % 0x400)
      && decide (0xdc00 + m % 0x400 ≤ 0xdfff)) = true := by
    simp; omega
  have hfin : 0x10000 + (0xd800 + m / 0x400 - 0xd800) * 0x400 + (0xdc00 + m % 0x400 - 0xdc00)
      = 0x10000 + m := by omega
  simp only [hex4, List.append_eq, List.cons_append, List.nil_append, parseStrBody,
    Char.reduceEq, reduceIte, e1, e2, e3, e4, e5, e6, e7, e8, hrec1, hrec2,
    hb1, hb3, if_pos hb2, hfin, if_true, Bool.false_eq_true, if_false,
    decide_True, Bool.and_self]

/-- Decoding inverts the serializer\'s escaping of one character. -/
theorem parseStrBody_encChar (fuel : Nat) (c : Char) (t : List Char) :
    parseStrBody (fuel + 1) (encChar c ++ t) =
      (parseStrBody fuel t).map (fun p => (c :: p.1, p.2)) := by
  rw [encChar]
  split_ifs with h1 h2 h3 h4 h5 h6 h7 h8 h9
  · subst h1; rfl
  · subst h2; rfl
  · subst h3; rfl
  · subst h4; rfl
  · subst h5; rfl
  · subst h6; rfl
  · subst h7; rfl
  · simp only [Bool.and_eq_true, decide_eq_true_eq] at h8
    have hlt : ¬c.toNat < 0x20 := by omega
    simp only [List.cons_append, List.nil_append, parseStrBody,
      if_neg h1, if_neg h2, if_neg hlt]
    rfl
  · have hrange : c.toNat < 0xd800 ∨ 0xdfff < c.toNat := by
      rcases char_valid_nat c with h | h
      · exact Or.inl h
      · exact Or.inr h.1
    rw [parseStrBody_u_bmp fuel c.toNat t h9 hrange, Char.ofNat_toNat]
  · have hval := char_valid_nat c
    have hm : c.toNat - 0x10000 < 0x100000 := by omega
    have hsum : 0x10000 + (c.toNat - 0x10000) = c.toNat := by omega
    have hp := parseStrBody_u_pair fuel (c.toNat - 0x10000) t hm
    rw [hsum, Char.ofNat_toNat] at hp
    simpa [List.append_assoc] using hp

/-- Every escaped character occupies at least one serialized character. -/
theorem encChar_length_pos (c : Char) : 1 ≤ (encChar c).length := by
  rw [encChar]
  split_ifs <;> simp [hex4]

/-- The serialized body is at least as long as the string. -/
theorem length_le_encStrBody (l : List Char) : l.length ≤ (encStrBody l).length := by
  induction l with
  | nil => simp [encStrBody]
  | cons c rest ih =>
    have := encChar_length_pos c
    simp only [encStrBody, List.length_append, List.length_cons]
    omega

/-- Decoding inverts the serializer\'s escaping of a whole string body,
for any sufficient fuel. -/
theorem parseStrBody_encStrBody (l : List Char) :
    ∀ (N : Nat) (t : List Char), l.length + 1 ≤ N →
      parseStrBody N (encStrBody l ++ '"' :: t) = some (l, t) := by
  induction l with
  | nil =>
    intro N t h
    match N, h with
    | M + 1, _ => rfl
  | cons c rest ih =>
    intro N t h
    match N, h with
    | M + 1, h =>
      simp only [encStrBody, List.append_assoc]
      rw [parseStrBody_encChar M c (encStrBody rest ++ '"' :: t)]
      rw [ih M t (by simpa using Nat.lt_succ_iff.mp (by simpa [List.length_cons] using h))]
      rfl

/-! ### JSON codec: shape of serialized values -/

/-- A serialized value never starts with whitespace. -/
theorem skipWs_dumpVal (i : Nat) (v : JValue) (rest : List Char) :
    skipWs (dumpVal i v ++ rest) = dumpVal i v ++ rest := by
  cases v with
  | null => simp [dumpVal, skipWs, isJsonWs, Char.reduceEq]
  | bool b => cases b <;> simp [dumpVal, skipWs, isJsonWs, Char.reduceEq]
  | str s => simp [dumpVal, encStr, skipWs, isJsonWs, Char.reduceEq]
  | arr xs =>
    cases xs <;> simp [dumpVal, skipWs, isJsonWs, Char.reduceEq]
  | obj kvs =>
    match kvs with
    | [] => simp [dumpVal, skipWs, isJsonWs, Char.reduceEq]
    | (k, v) :: ms => simp [dumpVal, skipWs, isJsonWs, Char.reduceEq]

/-- A serialized value never starts with a closing bracket. -/
theorem headIs_dumpVal_rbrack (i : Nat) (v : JValue) (rest : List Char) :
    headIs (dumpVal i v ++ rest) ']' = false := by
  cases v with
  | null => simp [dumpVal, headIs, Char.reduceEq]
  | bool b => cases b <;> simp [dumpVal, headIs, Char.reduceEq]
  | str s => simp [dumpVal, encStr, headIs, Char.reduceEq]
  | arr xs => cases xs <;> simp [dumpVal, headIs, Char.reduceEq]
  | obj kvs =>
    match kvs with
    | [] => simp [dumpVal, headIs, Char.reduceEq]
    | (k, v) :: ms => simp [dumpVal, headIs, Char.reduceEq]

/-- A serialized value never starts with a closing brace. -/
theorem headIs_dumpVal_rbrace (i : Nat) (v : JValue) (rest : List Char) :
    headIs (dumpVal i v ++ rest) '\x7d' = false := by
  cases v with
  | null => simp [dumpVal, headIs, Char.reduceEq]
  | bool b => cases b <;> simp [dumpVal, headIs, Char.reduceEq]
  | str s => simp [dumpVal, encStr, headIs, Char.reduceEq]
  | arr xs => cases xs <;> simp [dumpVal, headIs, Char.reduceEq]
  | obj kvs =>
    match kvs with
    | [] => simp [dumpVal, headIs, Char.reduceEq]
    | (k, v) :: ms => simp [dumpVal, headIs, Char.reduceEq]

/-- The value parser only looks at its input through `skipWs`. -/
theorem parseVal_skipWs (fuel : Nat) (l : List Char) :
    parseVal fuel (skipWs l) = parseVal fuel l := by
  cases fuel with
  | zero => rfl
  | succ f => simp only [parseVal, skipWs_idem]

/-- The element parser only looks at its input through `parseVal`. -/
theorem parseItems_skipWs (fuel : Nat) (l : List Char) :
    parseItems fuel (skipWs l) = parseItems fuel l := by
  cases fuel with
  | zero => rfl
  | succ f => simp only [parseItems, parseVal_skipWs]

/-- The member parser only looks at its input through `skipWs`. -/
theorem parseMembers_skipWs (fuel : Nat) (l : List Char) :
    parseMembers fuel (skipWs l) = parseMembers fuel l := by
  cases fuel with
  | zero => rfl
  | succ f => simp only [parseMembers, skipWs_idem]

/-- After the whitespace of an element list, the next character opens a
value, so it closes neither an array nor an object. -/
theorem skipWs_dumpItems_head (i : Nat) (x : JValue) (xs : List JValue)
    (T : List Char) :
    headIs (skipWs (dumpItems i x xs ++ T)) ']' = false ∧
    headIs (skipWs (dumpItems i x xs ++ T)) '\x7d' = false := by
  cases xs with
  | nil =>
    rw [dumpItems, List.append_assoc, skipWs_nlInd, skipWs_dumpVal]
    exact ⟨headIs_dumpVal_rbrack _ _ _, headIs_dumpVal_rbrace _ _ _⟩
  | cons y ys =>
    rw [dumpItems]
    rw [show nlInd i ++ dumpVal i x ++ ',' :: dumpItems i y ys ++ T
        = nlInd i ++ (dumpVal i x ++ (',' :: dumpItems i y ys ++ T)) by
      simp [List.append_assoc]]
    rw [skipWs_nlInd, skipWs_dumpVal]
    exact ⟨headIs_dumpVal_rbrack _ _ _, headIs_dumpVal_rbrace _ _ _⟩

/-- After the whitespace of a member list, the next character is the
opening quote of a key. -/
theorem skipWs_dumpMembers (i : Nat) (k : String) (v : JValue)
    (ms : List (String × JValue)) (T : List Char) :
    skipWs (dumpMembers i k v ms ++ T) =
      '"' :: (encStrBody k.data ++
        '"' :: (match ms with
          | [] => ':' :: ' ' :: (dumpVal i v ++ T)
          | m :: ms2 =>
            ':' :: ' ' :: (dumpVal i v ++ (',' :: (dumpMembers i m.1 m.2 ms2 ++ T))))) := by
  cases ms with
  | nil =>
    rw [dumpMembers]
    rw [show nlInd i ++ encStr k ++ ':' :: ' ' :: dumpVal i v ++ T
        = nlInd i ++ (encStr k ++ (':' :: ' ' :: (dumpVal i v ++ T))) by
      simp [List.append_assoc]]
    rw [skipWs_nlInd]
    simp [encStr, skipWs, isJsonWs, Char.reduceEq, List.append_assoc]
  | cons m ms2 =>
    rw [dumpMembers]
    rw [show nlInd i ++ encStr k ++ ':' :: ' ' :: dumpVal i v ++ ',' :: dumpMembers i m.1 m.2 ms2 ++ T
        = nlInd i ++ (encStr k ++ (':' :: ' ' :: (dumpVal i v ++ (',' :: (dumpMembers i m.1 m.2 ms2 ++ T))))) by
      simp [List.append_assoc]]
    rw [skipWs_nlInd]
    simp [encStr, skipWs, isJsonWs, Char.reduceEq, List.append_assoc]

/-- Every JSON value needs at least one unit of parser fuel. -/
theorem jfuel_pos (v : JValue) : 1 ≤ jfuel v := by
  cases v with
  | null => simp [jfuel]
  | bool b => simp [jfuel]
  | str s => simp [jfuel]
  | arr xs => cases xs <;> simp [jfuel]
  | obj kvs =>
    match kvs with
    | [] => simp [jfuel]
    | (k, v) :: ms => simp [jfuel]

/-- Element lists need at least one unit of parser fuel. -/
theorem jfuelItems_pos (x : JValue) (xs : List JValue) : 1 ≤ jfuelItems x xs := by
  cases xs with
  | nil => simp [jfuelItems]
  | cons y ys => simp [jfuelItems]; omega

/-- Member lists need at least one unit of parser fuel. -/
theorem jfuelMembers_pos (v : JValue) (ms : List (String × JValue)) :
    1 ≤ jfuelMembers v ms := by
  match ms with
  | [] => simp [jfuelMembers]
  | (a, b) :: ms2 => simp [jfuelMembers]; omega

/-- Round-trip of the parser over the serializer, for every value, element
list and member list, at any indentation, with any sufficient fuel and any
trailing input. -/
theorem parse_dump_master (fuel : Nat) :
    (∀ (i : Nat) (v : JValue) (rest : List Char), jfuel v ≤ fuel →
      parseVal fuel (dumpVal i v ++ rest) = some (v, rest)) ∧
    (∀ (i j : Nat) (x : JValue) (xs : List JValue) (rest : List Char),
      jfuelItems x xs ≤ fuel →
      parseItems fuel (dumpItems i x xs ++ (nlInd j ++ ']' :: rest)) =
        some (x :: xs, rest)) ∧
    (∀ (i j : Nat) (k : String) (v : JValue) (ms : List (String × JValue))
      (rest : List Char), jfuelMembers v ms ≤ fuel →
      parseMembers fuel (dumpMembers i k v ms ++ (nlInd j ++ '\x7d' :: rest)) =
        some ((k, v) :: ms, rest)) := by
  induction fuel with
  | zero =>
    refine ⟨fun i v rest h => absurd h (by have := jfuel_pos v; omega),
            fun i j x xs rest h => absurd h (by have := jfuelItems_pos x xs; omega),
            fun i j k v ms rest h => absurd h (by have := jfuelMembers_pos v ms; omega)⟩
  | succ fuel ih =>
    obtain ⟨ihv, ihi, ihm⟩ := ih
    refine ⟨?_, ?_, ?_⟩
    · intro i v rest h
      cases v with
      | null =>
        simp [dumpVal, parseVal, skipWs, isJsonWs, Char.reduceEq, leadsWith, headIs]
      | bool b =>
        cases b <;>
          simp [dumpVal, parseVal, skipWs, isJsonWs, Char.reduceEq, leadsWith, headIs]
      | str s =>
        rw [show dumpVal i (.str s) ++ rest = '"' :: (encStrBody s.data ++ '"' :: rest) by
          simp [dumpVal, encStr]]
        simp only [parseVal]
        rw [skipWs_cons_false '"' _ (by decide)]
        simp only [Char.reduceEq, reduceIte]
        rw [parseStrBody_encStrBody s.data ((encStrBody s.data ++ '"' :: rest).length + 1) rest
          (by have hb := length_le_encStrBody s.data
              simp only [List.length_append, List.length_cons] at hb ⊢
              omega)]
        rfl
      | arr xs =>
        cases xs with
        | nil => simp [dumpVal, parseVal, skipWs, isJsonWs, Char.reduceEq, headIs]
        | cons x xs =>
          have hx : jfuelItems x xs ≤ fuel := by
            simp only [jfuel] at h; omega
          rw [show dumpVal i (.arr (x :: xs)) ++ rest
              = '[' :: (dumpItems (i + 2) x xs ++ (nlInd i ++ ']' :: rest)) by
            simp [dumpVal, List.append_assoc]]
          simp only [parseVal]
          rw [skipWs_cons_false '[' _ (by decide)]
          simp only [Char.reduceEq, reduceIte]
          rw [(skipWs_dumpItems_head (i + 2) x xs (nlInd i ++ ']' :: rest)).1]
          simp only [Bool.false_eq_true, if_false]
          rw [parseItems_skipWs, ihi (i + 2) i x xs rest hx]
          rfl
      | obj kvs =>
        match kvs with
        | [] => simp [dumpVal, parseVal, skipWs, isJsonWs, Char.reduceEq, headIs]
        | (k, v) :: ms =>
          have hm : jfuelMembers v ms ≤ fuel := by
            simp only [jfuel] at h; omega
          rw [show dumpVal i (.obj ((k, v) :: ms)) ++ rest
              = '\x7b' :: (dumpMembers (i + 2) k v ms ++ (nlInd i ++ '\x7d' :: rest)) by
            simp [dumpVal, List.append_assoc]]
          simp only [parseVal]
          rw [skipWs_cons_false '\x7b' _ (by decide)]
          simp only [Char.reduceEq, reduceIte]
          rw [parseMembers_skipWs]
          rw [skipWs_dumpMembers]
          simp only [headIs, Char.reduceEq, Bool.false_eq_true, if_false, decide_False]
          rw [ihm (i + 2) i k v ms rest hm]
          rfl
    · intro i j x xs rest h
      cases xs with
      | nil =>
        have hx : jfuel x ≤ fuel := by
          simp only [jfuelItems] at h; omega
        rw [show dumpItems i x [] ++ (nlInd j ++ ']' :: rest)
            = nlInd i ++ (dumpVal i x ++ (nlInd j ++ ']' :: rest)) by
          simp [dumpItems, List.append_assoc]]
        simp only [parseItems]
        rw [show parseVal fuel (nlInd i ++ (dumpVal i x ++ (nlInd j ++ ']' :: rest)))
            = some (x, nlInd j ++ ']' :: rest) by
          rw [← parseVal_skipWs, skipWs_nlInd, skipWs_dumpVal]
          exact ihv i x _ hx]
        dsimp only
        rw [show skipWs (nlInd j ++ ']' :: rest) = ']' :: rest by
          rw [skipWs_nlInd, skipWs_cons_false _ _ (by decide)]]
        simp [headIs, Char.reduceEq]
      | cons y ys =>
        have hx : jfuel x ≤ fuel := by
          simp only [jfuelItems] at h
          have := jfuelItems_pos y ys
          omega
        have hys : jfuelItems y ys ≤ fuel := by
          simp only [jfuelItems] at h
          have := jfuel_pos x
          omega
        rw [show dumpItems i x (y :: ys) ++ (nlInd j ++ ']' :: rest)
            = nlInd i ++ (dumpVal i x ++
                (',' :: (dumpItems i y ys ++ (nlInd j ++ ']' :: rest)))) by
          simp [dumpItems, List.append_assoc]]
        simp only [parseItems]
        rw [show parseVal fuel (nlInd i ++ (dumpVal i x ++
              (',' :: (dumpItems i y ys ++ (nlInd j ++ ']' :: rest)))))
            = some (x, ',' :: (dumpItems i y ys ++ (nlInd j ++ ']' :: rest))) by
          rw [← parseVal_skipWs, skipWs_nlInd, skipWs_dumpVal]
          exact ihv i x _ hx]
        dsimp only
        rw [skipWs_cons_false ',' _ (by decide)]
        simp only [headIs, Char.reduceEq, decide_True, if_true, List.tail_cons, reduceIte]
        rw [ihi i j y ys rest hys]
    · intro i j k v ms rest h
      cases ms with
      | nil =>
        have hv : jfuel v ≤ fuel := by
          simp only [jfuelMembers] at h; omega
        simp only [parseMembers]
        rw [skipWs_dumpMembers]
        dsimp only
        simp only [headIs, Char.reduceEq, decide_True, if_true, List.tail_cons, reduceIte]
        rw [parseStrBody_encStrBody k.data _ _
          (by have hb := length_le_encStrBody k.data
              simp only [List.length_append, List.length_cons] at hb ⊢
              omega)]
        dsimp only
        rw [skipWs_cons_false ':' _ (by decide)]
        simp only [headIs, Char.reduceEq, decide_True, if_true, List.tail_cons, reduceIte]
        rw [show parseVal fuel (' ' :: (dumpVal i v ++ (nlInd j ++ '\x7d' :: rest)))
            = some (v, nlInd j ++ '\x7d' :: rest) by
          rw [← parseVal_skipWs]
          rw [show skipWs (' ' :: (dumpVal i v ++ (nlInd j ++ '\x7d' :: rest)))
              = dumpVal i v ++ (nlInd j ++ '\x7d' :: rest) by
            simp [skipWs, isJsonWs, skipWs_dumpVal]]
          exact ihv i v _ hv]
        dsimp only
        rw [show skipWs (nlInd j ++ '\x7d' :: rest) = '\x7d' :: rest by
          rw [skipWs_nlInd, skipWs_cons_false _ _ (by decide)]]
        simp only [headIs, Char.reduceEq, decide_False, decide_True, Bool.false_eq_true,
          if_false, if_true, List.tail_cons, reduceIte]
      | cons m ms2 =>
        obtain ⟨k2, v2⟩ := m
        have hv : jfuel v ≤ fuel := by
          simp only [jfuelMembers] at h
          have := jfuelMembers_pos v2 ms2
          omega
        have hms : jfuelMembers v2 ms2 ≤ fuel := by
          simp only [jfuelMembers] at h
          have := jfuel_pos v
          omega
        simp only [parseMembers]
        rw [skipWs_dumpMembers]
        dsimp only
        simp only [headIs, Char.reduceEq, decide_True, if_true, List.tail_cons, reduceIte]
        rw [parseStrBody_encStrBody k.data _ _
          (by have hb := length_le_encStrBody k.data
              simp only [List.length_append, List.length_cons] at hb ⊢
              omega)]
        dsimp only
        rw [skipWs_cons_false ':' _ (by decide)]
        simp only [headIs, Char.reduceEq, decide_True, if_true, List.tail_cons, reduceIte]
        rw [show parseVal fuel (' ' :: (dumpVal i v ++
              (',' :: (dumpMembers i k2 v2 ms2 ++ (nlInd j ++ '\x7d' :: rest)))))
            = some (v, ',' :: (dumpMembers i k2 v2 ms2 ++ (nlInd j ++ '\x7d' :: rest))) by
          rw [← parseVal_skipWs]
          rw [show skipWs (' ' :: (dumpVal i v ++
                (',' :: (dumpMembers i k2 v2 ms2 ++ (nlInd j ++ '\x7d' :: rest)))))
              = dumpVal i v ++ (',' :: (dumpMembers i k2 v2 ms2 ++ (nlInd j ++ '\x7d' :: rest))) by
            simp [skipWs, isJsonWs, skipWs_dumpVal]]
          exact ihv i v _ hv]
        dsimp only
        rw [skipWs_cons_false ',' _ (by decide)]
        simp only [headIs, Char.reduceEq, decide_True, if_true, List.tail_cons, reduceIte]
        rw [ihm i j k2 v2 ms2 rest hms]

/-- The fuel a value needs is bounded by the length of its serialization
(each unit of fuel corresponds to at least one serialized character). -/
theorem jfuel_le_dump (fuel : Nat) :
    (∀ (v : JValue) (i : Nat), jfuel v ≤ fuel → jfuel v ≤ (dumpVal i v).length) ∧
    (∀ (x : JValue) (xs : List JValue) (i : Nat), jfuelItems x xs ≤ fuel →
      jfuelItems x xs ≤ (dumpItems i x xs).length) ∧
    (∀ (k : String) (v : JValue) (ms : List (String × JValue)) (i : Nat),
      jfuelMembers v ms ≤ fuel → jfuelMembers v ms ≤ (dumpMembers i k v ms).length) := by
  induction fuel with
  | zero =>
    refine ⟨fun v i h => absurd h (by have := jfuel_pos v; omega),
            fun x xs i h => absurd h (by have := jfuelItems_pos x xs; omega),
            fun k v ms i h => absurd h (by have := jfuelMembers_pos v ms; omega)⟩
  | succ fuel ih =>
    obtain ⟨ihv, ihi, ihm⟩ := ih
    refine ⟨?_, ?_, ?_⟩
    · intro v i h
      cases v with
      | null => simp [jfuel, dumpVal]
      | bool b => cases b <;> simp [jfuel, dumpVal]
      | str s => simp [jfuel, dumpVal, encStr]
      | arr xs =>
        cases xs with
        | nil => simp [jfuel, dumpVal]
        | cons x xs =>
          have hb : jfuelItems x xs ≤ fuel := by simp only [jfuel] at h; omega
          have := ihi x xs (i + 2) hb
          simp only [jfuel, dumpVal, List.length_cons, List.length_append, nlInd,
            List.length_replicate] at *
          omega
      | obj kvs =>
        match kvs with
        | [] => simp [jfuel, dumpVal]
        | (k, v) :: ms =>
          have hb : jfuelMembers v ms ≤ fuel := by simp only [jfuel] at h; omega
          have := ihm k v ms (i + 2) hb
          simp only [jfuel, dumpVal, List.length_cons, List.length_append, nlInd,
            List.length_replicate] at *
          omega
    · intro x xs i h
      cases xs with
      | nil =>
        have hb : jfuel x ≤ fuel := by simp only [jfuelItems] at h; omega
        have := ihv x i hb
        simp only [jfuelItems, dumpItems, List.length_append, nlInd, List.length_cons,
          List.length_replicate] at *
        omega
      | cons y ys =>
        have hbx : jfuel x ≤ fuel := by
          simp only [jfuelItems] at h
          have := jfuelItems_pos y ys
          omega
        have hbys : jfuelItems y ys ≤ fuel := by
          simp only [jfuelItems] at h
          have := jfuel_pos x
          omega
        have h1 := ihv x i hbx
        have h2 := ihi y ys i hbys
        simp only [jfuelItems, dumpItems, List.length_append, nlInd, List.length_cons,
          List.length_replicate] at *
        omega
    · intro k v ms i h
      cases ms with
      | nil =>
        have hb : jfuel v ≤ fuel := by simp only [jfuelMembers] at h; omega
        have := ihv v i hb
        simp only [jfuelMembers, dumpMembers, List.length_append, nlInd, List.length_cons,
          List.length_replicate] at *
        omega
      | cons m ms2 =>
        obtain ⟨k2, v2⟩ := m
        have hbv : jfuel v ≤ fuel := by
          simp only [jfuelMembers] at h
          have := jfuelMembers_pos v2 ms2
          omega
        have hbms : jfuelMembers v2 ms2 ≤ fuel := by
          simp only [jfuelMembers] at h
          have := jfuel_pos v
          omega
        have h1 := ihv v i hbv
        have h2 := ihm k2 v2 ms2 i hbms
        simp only [jfuelMembers, dumpMembers, List.length_append, nlInd, List.length_cons,
          List.length_replicate] at *
        omega

/-- C8.  Saving any log document with `save_log` (the pretty-printed
`json.dump` text) and reloading it with `load_existing_log` (the
`json.load` model) yields the identical document, for every document over
the log's value domain — objects, arrays, strings, booleans and null. -/
theorem save_log_load_existing_log_roundtrip (doc : JValue) :
    load_existing_log (save_log doc) = doc := by
  have hfuel : jfuel doc ≤ (dumpVal 0 doc).length + 1 := by
    have := (jfuel_le_dump (jfuel doc)).1 doc 0 le_rfl
    omega
  have hparse := (parse_dump_master ((dumpVal 0 doc).length + 1)).1 0 doc [] hfuel
  rw [List.append_nil] at hparse
  simp only [load_existing_log, save_log, jsonLoads, jsonDumps]
  rw [hparse]
  simp [skipWs]

end WebArchiving
